import Mathlib

/-!
Verification of the fuzzy text-matching and relevance-ranking engine of the
howtomgr guide catalog site, as implemented in `src/lib/search-keywords.js`
(keyword thesaurus, `FuzzySearch`, `SearchManager`) and
`src/components/SearchBox.js` (inline debounced filter, simple scorer,
Levenshtein helper).

Modelling conventions for the shallow embedding:
* JavaScript strings are `List Char` (`Str`).  `toLowerCase` is modelled as
  the ASCII lowering `asciiLower` (all string data in the engine is ASCII).
* JavaScript floating-point numbers are modelled as exact rationals (`ℚ`);
  every numeric literal of the source (`0.7`, `0.8`, `0.3`, …) is carried
  over as the corresponding rational.
* `Array.prototype.sort` is stable (ECMAScript 2019); it is modelled by a
  stable insertion sort on the comparator's key.
* JavaScript objects whose property sets differ between code paths
  (e.g. the result objects of `FuzzySearch.search`, which carry
  `matchedKey`/`keywordScore`/`fuzzyScore` only on the scoring path) are
  modelled with `Option`-valued fields, `none` meaning "property absent".
-/

set_option maxHeartbeats 2000000
set_option maxRecDepth 100000

abbrev Str := List Char

/-- Shorthand turning a Lean string literal into the `List Char` model. -/
def str (s : String) : Str := s.toList

/-- ASCII lower-casing of one character, the behaviour of
`String.prototype.toLowerCase` on the ASCII range used by the engine. -/
def lowerChar (c : Char) : Char :=
  if 65 ≤ c.toNat ∧ c.toNat ≤ 90 then Char.ofNat (c.toNat + 32) else c

/-- Model of `s.toLowerCase()`. -/
def asciiLower (s : Str) : Str := s.map lowerChar

/-- Whitespace characters recognised by `String.prototype.trim` and the
`\s` regex class (the engine only ever meets these four). -/
def isJsSpace (c : Char) : Bool := c = ' ' ∨ c = '\t' ∨ c = '\n' ∨ c = '\r'

/-- Strip trailing whitespace (helper for `jsTrim`). -/
def rstrip (s : Str) : Str := (s.reverse.dropWhile isJsSpace).reverse

/-- Model of `s.trim()`. -/
def jsTrim (s : Str) : Str := rstrip (s.dropWhile isJsSpace)

/-- Boolean "is a prefix of" on `List Char` (self-contained so that all
substring reasoning in this file is elementary). -/
def pfx : Str → Str → Bool
  | [], _ => true
  | _ :: _, [] => false
  | a :: as, b :: bs => if a = b then pfx as bs else false

/-- Model of `hay.indexOf(needle)` for strings: the first index `i` at which
`needle` occurs in `hay`, `none` when absent (JS returns `-1`). -/
def indexOfSub (hay needle : Str) : Option Nat :=
  (List.range (hay.length + 1)).find? (fun i => pfx needle (hay.drop i))

/-- Model of `hay.includes(needle)`. -/
def includes (hay needle : Str) : Bool := (indexOfSub hay needle).isSome

/-- Model of `a.startsWith(b)`. -/
def startsWith (a b : Str) : Bool := pfx b a

/-- Model of `Array.prototype.join(' ')`. -/
def joinSp : List Str → Str
  | [] => []
  | [x] => x
  | x :: rest => x ++ ' ' :: joinSp rest

/-- Split on maximal runs of separator characters, the behaviour of
`String.prototype.split` with a `/[...]+/` regex (leading/trailing empty
pieces included, exactly as in JS). -/
def splitRuns (isSep : Char → Bool) : Str → List Str :=
  go []
where
  go (acc : Str) : Str → List Str
    | [] => [acc.reverse]
    | c :: rest =>
      if isSep c then acc.reverse :: go [] (rest.dropWhile isSep)
      else go (c :: acc) rest
  termination_by l => l.length
  decreasing_by
    · have := (List.dropWhile_sublist (l := rest) isSep).length_le
      simp; omega
    · simp

/-- Model of `text.slice(a, b)` for the in-range and overflowing uses in the
engine (JS clamps both indices to the string length). -/
def jsSlice (s : Str) (a b : Nat) : Str := (s.take b).drop a

/-- Model of `Math.min` on the rational number model (kernel-reducible,
unlike the lattice `min` of `ℚ`). -/
def ratMin (a b : ℚ) : ℚ := if a ≤ b then a else b

/-- Model of `Math.max` on the rational number model. -/
def ratMax (a b : ℚ) : ℚ := if a ≤ b then b else a

/-- Word characters of the regex `\b` boundary (`[A-Za-z0-9_]`). -/
def isWordChar (c : Char) : Bool :=
  ('a' ≤ c && c ≤ 'z') || ('A' ≤ c && c ≤ 'Z') || ('0' ≤ c && c ≤ '9') || c = '_'

/-- Whether the (possibly out-of-range) position `i` of `text` holds a word
character; positions outside the string count as non-word, as in regex
`\b` semantics. -/
def wordAt (text : Str) (i : Int) : Bool :=
  if 0 ≤ i ∧ i < (text.length : Int) then isWordChar (text.getD i.toNat ' ') else false

/-- Regex word boundary `\b` at position `i` of `text`. -/
def boundaryAt (text : Str) (i : Nat) : Bool :=
  wordAt text ((i : Int) - 1) != wordAt text (i : Int)

/-- Model of `text.match(new RegExp('\\b' + escapeRegex(query), 'i')).index`:
the first position with a `\b` boundary followed by a case-insensitive
occurrence of the (regex-escaped, hence literal) query. -/
def wbIndex (query text : Str) : Option Nat :=
  (List.range (text.length + 1)).find?
    (fun i => boundaryAt text i && pfx (asciiLower query) (asciiLower (text.drop i)))

/-!  Levenshtein distance, `src/components/SearchBox.js` lines 211–237.
The JS code fills `matrix[i][j]` (`i` indexing `str2`, `j` indexing `str1`)
with the standard recurrence; `lmat` is that cell function. -/

/-- Row `i + 1` of the dynamic program, built from row `i` (`prev`); the JS
code fills the matrix row by row in exactly this way.  `c2` is
`str2.charAt(i)` and `base` the first cell `matrix[i+1][0] = i + 1`. -/
def lmatRow (str1 : Str) (c2 : Char) (prev : Nat → Nat) (base : Nat) : Nat → Nat
  | 0 => base
  | j + 1 =>
    if c2 = str1.getD j ' ' then prev j
    else
      min (prev j + 1)
        (min (lmatRow str1 c2 prev base j + 1) (prev (j + 1) + 1))

/-- Cell `matrix[i][j]` of the dynamic program of `levenshteinDistance`. -/
def lmat (str1 str2 : Str) : Nat → Nat → Nat
  | 0 => fun j => j
  | i + 1 => lmatRow str1 (str2.getD i ' ') (lmat str1 str2 i) (i + 1)

lemma lmat_zero (str1 str2 : Str) (j : Nat) : lmat str1 str2 0 j = j := rfl

lemma lmat_succ_zero (str1 str2 : Str) (i : Nat) : lmat str1 str2 (i + 1) 0 = i + 1 := rfl

lemma lmat_succ_succ (str1 str2 : Str) (i j : Nat) :
    lmat str1 str2 (i + 1) (j + 1) =
      if str2.getD i ' ' = str1.getD j ' ' then lmat str1 str2 i j
      else
        min (lmat str1 str2 i j + 1)
          (min (lmat str1 str2 (i + 1) j + 1) (lmat str1 str2 i (j + 1) + 1)) := rfl

/-- Model of `levenshteinDistance(str1, str2)` of `SearchBox.js`: value of
the bottom-right matrix cell. -/
def levenshteinDistance (str1 str2 : Str) : Nat :=
  lmat str1 str2 str2.length str1.length

lemma lmat_zero_right (str1 str2 : Str) : ∀ i, lmat str1 str2 i 0 = i := by
  intro i
  cases i with
  | zero => exact lmat_zero str1 str2 0
  | succ n => exact lmat_succ_zero str1 str2 n

lemma lmat_symm (str1 str2 : Str) : ∀ i j, lmat str1 str2 i j = lmat str2 str1 j i := by
  intro i
  induction i with
  | zero =>
    intro j
    rw [lmat_zero, lmat_zero_right]
  | succ i ih =>
    intro j
    induction j with
    | zero =>
      rw [lmat_zero_right, lmat_zero]
    | succ j ihj =>
      rw [lmat_succ_succ, lmat_succ_succ]
      by_cases h : str2.getD i ' ' = str1.getD j ' '
      · rw [if_pos h, if_pos h.symm, ih]
      · rw [if_neg h, if_neg (fun h' => h h'.symm), ih j, ih (j + 1), ihj]
        omega

lemma lmat_diag (a : Str) : ∀ i, lmat a a i i = 0 := by
  intro i
  induction i with
  | zero => exact lmat_zero a a 0
  | succ i ih => rw [lmat_succ_succ, if_pos rfl, ih]

/-!  Data model. -/

/-- Catalog record consumed by the engine (`GuideEntry` of the spec).  All
textual fields are total; a missing optional field of the JS object is the
empty string / empty list.  `searchText` is the optional pre-built search
blob read by the SearchBox component (`guide.searchText || ''`). -/
structure Guide where
  name : Str
  displayName : Str
  description : Str
  category : Str
  language : Str
  topics : List Str
  stars : Nat
  searchText : Str
deriving DecidableEq, Repr

/-- One match object of `fuzzyMatch`/`fuzzyCharacterMatch`:
`{start, end, matchType}` plus the `queryIndex` property that only the
character tier sets (`none` = property absent).  `end` is a reserved word
in Lean, hence `endPos`. -/
structure MatchSpan where
  start : Nat
  endPos : Nat
  matchType : Str
  queryIndex : Option Nat
deriving DecidableEq, Repr

/-- Result of `fuzzyMatch` / `fuzzyCharacterMatch`: `{score, matches}`
(`matches` is a reserved token in Lean, hence `matchList`). -/
structure MatchResult where
  score : ℚ
  matchList : List MatchSpan
deriving DecidableEq, Repr

/-- A match as stored on a search result: `{...match, key, value}` with the
optional `expandedTerm` property added on the expanded-term path. -/
structure KeyedMatch extends MatchSpan where
  key : Str
  value : Str
  expandedTerm : Option Str
deriving DecidableEq, Repr

/-- One element of the list returned by `FuzzySearch.search` /
`FuzzySearch.searchIndex`.  The fields `refIndex`, `matchedKey`,
`keywordScore` and `fuzzyScore` are `Option`s because the short-query
branches build objects without some of these properties. -/
structure SearchResult where
  item : Guide
  score : ℚ
  matchList : List KeyedMatch
  refIndex : Option Nat
  matchedKey : Option Str
  keywordScore : Option ℚ
  fuzzyScore : Option ℚ
deriving DecidableEq, Repr

/-- Catalog entry augmented by `FuzzySearch.createIndex`: the original item
plus `_searchText`, `_searchWords` and `_originalIndex`. -/
structure IndexedGuide where
  guide : Guide
  sText : Str
  sWords : List Str
  origIndex : Nat
deriving DecidableEq, Repr

/-- One element of the list returned by `SearchManager.search`: the item's
fields spread together with `score`, `highlightedName` and
`highlightedDescription`. -/
structure FormattedResult where
  item : Guide
  score : ℚ
  highlightedName : Str
  highlightedDescription : Str
deriving DecidableEq, Repr

/-!  Keyword thesaurus, `src/lib/search-keywords.js` lines 5–109. -/

/-- The `SEARCH_KEYWORDS` alias table (all 56 entries, in source order). -/
def SEARCH_KEYWORDS : List (Str × List Str) := [
  (str "kubectl", [str "kubernetes", str "k8s"]),
  (str "k8s", [str "kubernetes", str "kubectl"]),
  (str "kubernetes", [str "kubectl", str "k8s", str "container", str "orchestration"]),
  (str "docker", [str "container", str "containerization"]),
  (str "containers", [str "docker", str "kubernetes", str "k8s", str "podman"]),
  (str "nginx", [str "web server", str "reverse proxy", str "load balancer", str "http"]),
  (str "apache", [str "web server", str "http server", str "httpd"]),
  (str "web server", [str "nginx", str "apache", str "haproxy", str "traefik", str "caddy"]),
  (str "reverse proxy", [str "nginx", str "haproxy", str "traefik"]),
  (str "load balancer", [str "nginx", str "haproxy", str "traefik"]),
  (str "postgres", [str "postgresql"]),
  (str "postgresql", [str "postgres", str "sql", str "database"]),
  (str "mysql", [str "mariadb", str "sql", str "database"]),
  (str "mariadb", [str "mysql", str "sql", str "database"]),
  (str "mongodb", [str "mongo", str "nosql", str "database"]),
  (str "mongo", [str "mongodb"]),
  (str "redis", [str "cache", str "key-value", str "database"]),
  (str "database", [str "mysql", str "postgresql", str "mongodb", str "redis", str "sql", str "nosql"]),
  (str "sql", [str "mysql", str "postgresql", str "mariadb"]),
  (str "nosql", [str "mongodb", str "redis"]),
  (str "authentication", [str "keycloak", str "authelia", str "auth"]),
  (str "auth", [str "keycloak", str "authelia", str "authentication"]),
  (str "vpn", [str "wireguard", str "openvpn"]),
  (str "firewall", [str "fail2ban", str "security"]),
  (str "secrets", [str "vault", str "security"]),
  (str "vault", [str "secrets", str "hashicorp", str "security"]),
  (str "metrics", [str "prometheus", str "grafana", str "monitoring"]),
  (str "monitoring", [str "prometheus", str "grafana", str "nagios", str "zabbix"]),
  (str "dashboards", [str "grafana", str "monitoring"]),
  (str "alerting", [str "prometheus", str "grafana", str "monitoring"]),
  (str "chat", [str "mattermost", str "rocketchat", str "matrix", str "communication"]),
  (str "slack", [str "mattermost", str "rocketchat"]),
  (str "teams", [str "mattermost", str "rocketchat"]),
  (str "video", [str "jitsi", str "communication"]),
  (str "conference", [str "jitsi", str "communication"]),
  (str "streaming", [str "plex", str "jellyfin", str "media"]),
  (str "movies", [str "plex", str "jellyfin", str "radarr", str "media"]),
  (str "tv", [str "plex", str "jellyfin", str "sonarr", str "media"]),
  (str "music", [str "plex", str "jellyfin", str "lidarr", str "media"]),
  (str "media server", [str "plex", str "jellyfin"]),
  (str "cms", [str "wordpress", str "drupal", str "ghost"]),
  (str "blog", [str "wordpress", str "ghost"]),
  (str "wiki", [str "bookstack", str "outline"]),
  (str "notes", [str "bookstack", str "outline"]),
  (str "files", [str "nextcloud", str "owncloud"]),
  (str "cloud storage", [str "nextcloud", str "owncloud"]),
  (str "automation", [str "ansible", str "terraform"]),
  (str "infrastructure as code", [str "terraform", str "ansible"]),
  (str "iac", [str "terraform", str "ansible"]),
  (str "ci/cd", [str "gitlab", str "jenkins"]),
  (str "continuous integration", [str "gitlab", str "jenkins"]),
  (str "git", [str "gitlab", str "gitea"]),
  (str "repository", [str "gitlab", str "gitea"]),
  (str "k8", [str "kubernetes"]),
  (str "tf", [str "terraform"]),
  (str "pg", [str "postgresql"]),
  (str "db", [str "database"]),
  (str "lb", [str "load balancer"]),
  (str "rp", [str "reverse proxy"])]

/-- Insert a term into the accumulated expansion set; models `Set.add`
(insertion order, no duplicates). -/
def addTerm (l : List Str) (t : Str) : List Str := if t ∈ l then l else l ++ [t]

/-- Object-key lookup `SEARCH_KEYWORDS[normalizedQuery]`. -/
def lookupKeyword (n : Str) : Option (List Str) :=
  (SEARCH_KEYWORDS.find? (fun kv => kv.1 = n)).map (·.2)

/-- Model of `expandSearchQuery(query)` (lines 89–109): normalize, seed the
set with the normalized query, add direct alias
mappings, and for queries longer than 3 characters add every table entry
whose key contains or is contained in the query. -/
def expandSearchQuery (query : Str) : List Str :=
  let normalizedQuery := jsTrim (asciiLower query)
  let base := [normalizedQuery]
  let base2 :=
    match lookupKeyword normalizedQuery with
    | some aliases => aliases.foldl addTerm base
    | none => base
  if 3 < normalizedQuery.length then
    SEARCH_KEYWORDS.foldl
      (fun acc kv =>
        if includes kv.1 normalizedQuery || includes normalizedQuery kv.1 then
          kv.2.foldl addTerm (addTerm acc kv.1)
        else acc)
      base2
  else base2

/-!  Relevance scorer, `calculateSearchScore` (lines 114–157). -/

/-- Searchable text of an item:
`[name, displayName, description, category, language, ...topics]
.filter(Boolean).join(' ').toLowerCase()`. -/
def searchableTextOf (item : Guide) : Str :=
  asciiLower (joinSp ((([item.name, item.displayName, item.description,
    item.category, item.language] ++ item.topics).filter (fun s => ¬ s = []))))

/-- Model of `calculateSearchScore(item, query, expandedTerms)`: exact-query
bonus 1.0, 0.7 per expanded term found, 0.5 per whitespace word containing
the query, 0.8 name/displayName boost, 0.1 popularity boost, capped at 2.0. -/
def calculateSearchScore (item : Guide) (query : Str) (expandedTerms : List Str) : ℚ :=
  let searchableText := searchableTextOf item
  let s1 : ℚ := if includes searchableText (asciiLower query) then 1 else 0
  let s2 : ℚ := ((expandedTerms.countP (fun term => includes searchableText term) : ℚ)) * (7/10)
  let words := splitRuns isJsSpace searchableText
  let s3 : ℚ := ((words.countP (fun word => includes word (asciiLower query)) : ℚ)) * (1/2)
  let s4 : ℚ :=
    if includes (asciiLower item.name) (asciiLower query)
        || includes (asciiLower item.displayName) (asciiLower query) then 8/10 else 0
  let s5 : ℚ := if 10 < item.stars then 1/10 else 0
  ratMin (s1 + s2 + s3 + s4 + s5) 2

/-!  Fuzzy matcher, `FuzzySearch` (lines 196–528).  The engine is always
instantiated with its default options: `threshold = 0.3`, `distance = 100`,
`keys = ['name', 'displayName', 'description']`. -/

/-- Default `this.threshold`. -/
def fsThreshold : ℚ := 3/10

/-- Default `this.distance`. -/
def fsDistance : Nat := 100

/-- Default `this.keys`. -/
def fsKeys : List Str := [str "name", str "displayName", str "description"]

/-- Loop state of `fuzzyCharacterMatch`: running score, collected matches,
`queryIndex`, `lastMatchIndex` (starts at `-1`, hence an `Int`) and
`consecutiveMatches`. -/
structure CharScanState where
  score : ℚ
  matchList : List MatchSpan
  queryIndex : Nat
  lastMatchIndex : Int
  consecutive : Nat
deriving DecidableEq, Repr

/-- Separator class of the consecutive-bonus test `/\s|-|_/`. -/
def isSepChar (c : Char) : Bool := isJsSpace c || c = '-' || c = '_'

/-- The character-scan loop of `fuzzyCharacterMatch` (lines 359–388):
walk the text left to right, greedily consuming query characters in order,
accumulating the base score `0.8/len(query)`, the increasing
consecutive-run bonus `0.1 + 0.05·run`, and the word-boundary bonus `0.1`.
`rest` is the unprocessed suffix of `text` starting at index `tIdx`. -/
def charScanGo (query text : Str) : List Char → Nat → CharScanState → CharScanState
  | [], _, st => st
  | c :: rest, tIdx, st =>
    if st.queryIndex < query.length then
      let st' :=
        if c = query.getD st.queryIndex ' ' then
          let consec := if (tIdx : Int) = st.lastMatchIndex + 1 then st.consecutive + 1 else 0
          let bonusConsec : ℚ :=
            if (tIdx : Int) = st.lastMatchIndex + 1 then 1/10 + (consec : ℚ) * (1/20) else 0
          let bonusBoundary : ℚ :=
            if tIdx = 0 ∨ isSepChar (text.getD (tIdx - 1) ' ') then 1/10 else 0
          { score := st.score + bonusConsec + (8/10) / (query.length : ℚ) + bonusBoundary
            matchList := st.matchList ++
              [⟨tIdx, tIdx + 1, str "character", some st.queryIndex⟩]
            queryIndex := st.queryIndex + 1
            lastMatchIndex := (tIdx : Int)
            consecutive := consec }
        else st
      charScanGo query text rest (tIdx + 1) st'
    else st

/-- Loop of `mergeConsecutiveMatches` (lines 420–433). -/
def mergeGo (current : MatchSpan) : List MatchSpan → List MatchSpan
  | [] => [current]
  | m :: rest =>
    if m.start = current.endPos then mergeGo { current with endPos := m.endPos } rest
    else current :: mergeGo m rest

/-- Model of `mergeConsecutiveMatches(matches)` (lines 414–435); `mergeGo`
is its loop: `current` is being extended, a match starting exactly at
`current.end` widens it, anything else flushes it.  Lists of length at most
one are returned unchanged, exactly as in the source. -/
def mergeConsecutiveMatches : List MatchSpan → List MatchSpan
  | [] => []
  | m :: rest => mergeGo m rest

/-- Model of `fuzzyCharacterMatch(query, text)` (lines 349–409): run the
scan; if every query character was consumed apply the distance penalty,
the short-text bonus and the cap at 1, else report no match. -/
def fuzzyCharacterMatch (query text : Str) : MatchResult :=
  let st := charScanGo query text text 0 ⟨0, [], 0, -1, 0⟩
  if st.queryIndex = query.length then
    let s1 : ℚ :=
      if 1 < st.matchList.length then
        let firstStart : ℚ := ((st.matchList.headD ⟨0, 0, [], none⟩).start : ℚ)
        let lastStart : ℚ := ((st.matchList.getLastD ⟨0, 0, [], none⟩).start : ℚ)
        let maxDistance : ℚ := ((min fsDistance text.length : Nat) : ℚ)
        st.score * ratMax (1/10) (1 - (lastStart - firstStart) / maxDistance)
      else st.score
    let s2 : ℚ := s1 + ratMax 0 ((50 - (text.length : ℚ)) / 100)
    ⟨ratMin s2 1, mergeConsecutiveMatches st.matchList⟩
  else ⟨0, []⟩

/-- Model of `FuzzySearch.fuzzyMatch(query, text)` (lines 307–344): a query
longer than the text never matches; then exact substring (score 1.0),
word-boundary (0.9), and finally the character tier. -/
def FuzzySearch.fuzzyMatch (query text : Str) : MatchResult :=
  if text.length < query.length then ⟨0, []⟩
  else
    match indexOfSub text query with
    | some exactIndex =>
      ⟨1, [⟨exactIndex, exactIndex + query.length, str "exact", none⟩]⟩
    | none =>
      match wbIndex query text with
      | some wbIdx => ⟨9/10, [⟨wbIdx, wbIdx + query.length, str "word-boundary", none⟩]⟩
      | none => fuzzyCharacterMatch query text

/-- Model of `FuzzySearch.getValue(obj, key)` (lines 289–302) restricted to
the default keys; an unknown property yields `String(undefined || '') = ''`. -/
def FuzzySearch.getValue (item : Guide) (key : Str) : Str :=
  if key = str "name" then item.name
  else if key = str "displayName" then item.displayName
  else if key = str "description" then item.description
  else []

/-- Accumulator of the best-fuzzy-match loop of `FuzzySearch.search`
(lines 233–264): `bestFuzzyScore`, `bestMatches`, `bestKey`. -/
structure BestAcc where
  best : ℚ
  matchList : List KeyedMatch
  key : Str
deriving DecidableEq, Repr

/-- Body of the `for (const term of expandedTerms)` loop of
`FuzzySearch.search` (lines 251–263): an expanded term beating the current
best replaces it, with its score scaled by 0.8. -/
def FuzzySearch.termStep (key value : Str) (a : BestAcc) (term : Str) : BestAcc :=
  let expandedResult := FuzzySearch.fuzzyMatch term (asciiLower value)
  if a.best < expandedResult.score then
    ⟨expandedResult.score * (8/10),
     expandedResult.matchList.map (fun m => ⟨m, key, value, some term⟩), key⟩
  else a

/-- Body of the `for (const key of this.keys)` loop of `FuzzySearch.search`:
try the normalized query directly on the field, then every expanded term. -/
def FuzzySearch.keyStep (nq : Str) (terms : List Str) (item : Guide)
    (acc : BestAcc) (key : Str) : BestAcc :=
  let value := FuzzySearch.getValue item key
  if value = [] then acc
  else
    let directResult := FuzzySearch.fuzzyMatch nq (asciiLower value)
    let acc1 :=
      if acc.best < directResult.score then
        ⟨directResult.score,
         directResult.matchList.map (fun m => ⟨m, key, value, none⟩), key⟩
      else acc
    terms.foldl (FuzzySearch.termStep key value) acc1

/-- The whole fuzzy-matching pass over the default keys for one item. -/
def FuzzySearch.bestFuzzy (nq : Str) (terms : List Str) (item : Guide) : BestAcc :=
  fsKeys.foldl (FuzzySearch.keyStep nq terms item) ⟨0, [], []⟩

/-- Total score of one item in `FuzzySearch.search`:
`calculateSearchScore` plus the best fuzzy score. -/
def FuzzySearch.totalScore (query nq : Str) (terms : List Str) (item : Guide) : ℚ :=
  calculateSearchScore item query terms + (FuzzySearch.bestFuzzy nq terms item).best

/-- The result object pushed for item `i` of the catalog. -/
def FuzzySearch.mkResult (query nq : Str) (terms : List Str) (i : Nat) (item : Guide) :
    SearchResult :=
  let acc := FuzzySearch.bestFuzzy nq terms item
  ⟨item, FuzzySearch.totalScore query nq terms item, acc.matchList, some i,
   some acc.key, some (calculateSearchScore item query terms), some acc.best⟩

/-- The results-accumulation loop of `FuzzySearch.search` (lines 222–280):
in catalog order, score each item and keep it when the total reaches the
threshold. -/
def FuzzySearch.searchGo (query nq : Str) (terms : List Str) :
    List Guide → Nat → List SearchResult
  | [], _ => []
  | item :: rest, i =>
    (if fsThreshold ≤ FuzzySearch.totalScore query nq terms item then
      [FuzzySearch.mkResult query nq terms i item]
    else []) ++ FuzzySearch.searchGo query nq terms rest (i + 1)

/-- Stable insertion of `r` into a list sorted by non-increasing key:
`r` goes before the first element whose key it reaches.  Together with
`sortByKeyDesc` this is the unique stable sort for the JS comparator
`(a, b) => key(b) - key(a)` (ECMAScript `Array.prototype.sort` is stable). -/
def insertByKeyDesc {α : Type} (key : α → ℚ) (r : α) : List α → List α
  | [] => [r]
  | x :: xs => if key x ≤ key r then r :: x :: xs else x :: insertByKeyDesc key r xs

/-- Stable sort by non-increasing key (model of `.sort((a,b) => keyB - keyA)`). -/
def sortByKeyDesc {α : Type} (key : α → ℚ) : List α → List α
  | [] => []
  | x :: xs => insertByKeyDesc key x (sortByKeyDesc key xs)

/-- Model of `FuzzySearch.search(items, query)` (lines 208–284).  A null or
shorter-than-2 query maps every item to a zero-score result (`refIndex` is
`items.indexOf(item)`); otherwise items are scored, filtered by the
threshold and stably sorted by descending total score. -/
def FuzzySearch.search (items : List Guide) (query : Str) : List SearchResult :=
  if query.length < 2 then
    items.map (fun item =>
      ⟨item, 0, [], some (items.findIdx (fun x => x = item)), none, none, none⟩)
  else
    let normalizedQuery := jsTrim (asciiLower query)
    let expandedTerms := expandSearchQuery normalizedQuery
    sortByKeyDesc (fun r => r.score)
      (FuzzySearch.searchGo query normalizedQuery expandedTerms items 0)

/-- Model of `FuzzySearch.createIndex(items)` (lines 477–492). -/
def FuzzySearch.createIndex (items : List Guide) : List IndexedGuide :=
  items.enum.map (fun p =>
    let searchableText :=
      asciiLower (joinSp ((fsKeys.map (FuzzySearch.getValue p.2)).filter (fun s => ¬ s = [])))
    ⟨p.2, searchableText,
     (splitRuns isJsSpace searchableText).filter (fun word => 1 < word.length), p.1⟩)

/-- Model of `FuzzySearch.searchIndex(indexedItems, query)` (lines 497–527):
short queries map every indexed item to a zero-score result; otherwise a
cheap token-containment test rejects items for queries longer than 3
characters before the full per-item `search` runs, and survivors are sorted
by descending score. -/
def FuzzySearch.searchIndex (indexedItems : List IndexedGuide) (query : Str) :
    List SearchResult :=
  if query.length < 2 then
    indexedItems.map (fun item => ⟨item.guide, 0, [], none, none, none, none⟩)
  else
    let normalizedQuery := jsTrim (asciiLower query)
    let results := indexedItems.foldl
      (fun acc item =>
        let hasWordMatch := item.sWords.any
          (fun word => includes word normalizedQuery || includes normalizedQuery word)
        if ¬ hasWordMatch ∧ 3 < normalizedQuery.length then acc
        else
          match (FuzzySearch.search [item.guide] query).head? with
          | some result => if fsThreshold ≤ result.score then acc ++ [result] else acc
          | none => acc)
      []
    sortByKeyDesc (fun r => r.score) results

/-- The `<mark class="search-highlight">` opening tag of `highlightMatches`. -/
def markOpen : Str := str "<mark class=\"search-highlight\">"

/-- The `</mark>` closing tag of `highlightMatches`. -/
def markClose : Str := str "</mark>"

/-- Model of `FuzzySearch.highlightMatches(text, matches)` (lines 440–465):
sort the spans by start position (stable), then wrap each span's slice in a
mark tag, keeping the text between spans. -/
def FuzzySearch.highlightMatches (text : Str) (ms : List KeyedMatch) : Str :=
  if ms = [] then text
  else
    let sortedMatches := sortByKeyDesc (fun m => -((m.start : ℚ))) ms
    let final := sortedMatches.foldl
      (fun (acc : Str × Nat) m =>
        (acc.1 ++ jsSlice text acc.2 m.start ++ markOpen
          ++ jsSlice text m.start m.endPos ++ markClose, m.endPos))
      ([], 0)
    final.1 ++ text.drop final.2

/-- Model of `SearchManager.search(query)` (lines 558–579) with the default
options (`maxResults = 8`, `minQueryLength = 2`) over a catalog snapshot
`data` (for which `setData` has built the index): queries shorter than the
minimum length short-circuit to an empty, successful result list; otherwise
the indexed search runs, the first 8 results are kept and each is formatted
with highlighted name and description.  Note the same `result.matches` list
is applied both to `displayName || name` and to `description`. -/
def SearchManager.search (data : List Guide) (query : Str) : List FormattedResult :=
  if query.length < 2 then []
  else
    let results := FuzzySearch.searchIndex (FuzzySearch.createIndex data) query
    (results.take 8).map (fun result =>
      ⟨result.item, result.score,
       FuzzySearch.highlightMatches
         (if result.item.displayName = [] then result.item.name else result.item.displayName)
         result.matchList,
       FuzzySearch.highlightMatches result.item.description result.matchList⟩)

/-!  SearchBox component, `src/components/SearchBox.js`.  The debounced
effect (lines 19–107) filters the guides with an inline three-tier test and
sorts by `getSimpleScore`. -/

/-- Separator class of the SearchBox word splits, `/[\s\-_\.]+/`. -/
def isSbSep (c : Char) : Bool := isJsSpace c || c = '-' || c = '_' || c = '.'

/-- Search target of the inline filter (lines 30–38): all textual fields
plus the optional `searchText`, joined and lowered. -/
def searchTargetOf (guide : Guide) : Str :=
  asciiLower (joinSp ((([guide.name, guide.displayName, guide.description,
    guide.category, guide.language] ++ guide.topics ++ [guide.searchText]).filter
      (fun s => ¬ s = []))))

/-- The counting loop of the inline fuzzy tier (lines 57–66): greedily
match query characters in order against the word; the returned value is
the final `queryIndex`, which always equals the `matches` counter. -/
def greedyCountGo (q : Str) : List Char → Nat → Nat
  | [], qIdx => qIdx
  | c :: rest, qIdx =>
    if qIdx < q.length then
      if c = q.getD qIdx ' ' then greedyCountGo q rest (qIdx + 1)
      else greedyCountGo q rest qIdx
    else qIdx

/-- Number of query characters greedily found in order in `w`. -/
def greedyCount (q w : Str) : Nat := greedyCountGo q w 0

/-- Tier 1 of the inline filter: direct substring containment. -/
def searchBoxDirect (guide : Guide) (query : Str) : Bool :=
  includes (searchTargetOf guide) (asciiLower query)

/-- Tier 2 of the inline filter: some word starts with the query. -/
def searchBoxWordStart (guide : Guide) (query : Str) : Bool :=
  (splitRuns isSbSep (searchTargetOf guide)).any
    (fun word => startsWith word (asciiLower query))

/-- Tier 3 of the inline filter (only for queries of length ≥ 3): some word
of length ≥ 3 greedily matches at least
`min(0.7·len(query), 0.6·len(word))` query characters in order. -/
def searchBoxFuzzy (guide : Guide) (query : Str) : Bool :=
  (splitRuns isSbSep (searchTargetOf guide)).any
    (fun word =>
      if word.length < 3 then false
      else
        decide (ratMin ((((asciiLower query).length : ℚ)) * (7/10)) (((word.length : ℚ)) * (6/10))
          ≤ ((greedyCount (asciiLower query) word : ℚ))))

/-- Model of the inline guide filter of the debounced effect (lines 28–76):
direct match, word-start match, then the length-gated character-fuzzy tier. -/
def searchBoxFilter (guide : Guide) (query : Str) : Bool :=
  searchBoxDirect guide query || searchBoxWordStart guide query
    || (if 3 ≤ (asciiLower query).length then searchBoxFuzzy guide query else false)

/-- Model of `getSimpleScore(guide, query)` (lines 110–133). -/
def getSimpleScore (guide : Guide) (query : Str) : ℚ :=
  let normalizedQuery := asciiLower query
  (if asciiLower guide.name = normalizedQuery then 100 else 0)
  + (if asciiLower guide.displayName = normalizedQuery then 90 else 0)
  + (if includes (asciiLower guide.name) normalizedQuery then 50 else 0)
  + (if includes (asciiLower guide.displayName) normalizedQuery then 40 else 0)
  + (if includes (asciiLower guide.description) normalizedQuery then 20 else 0)
  + (if includes guide.category normalizedQuery then 30 else 0)
  + (if includes (asciiLower guide.language) normalizedQuery then 15 else 0)
  + ratMin (guide.stars : ℚ) 10

/-- Model of the debounced search of the SearchBox effect (lines 19–107):
queries of length ≥ 2 filter the guides, sort them by descending
`getSimpleScore` (stable) and keep the first 8; shorter queries yield the
empty result list (a successful, non-error outcome). -/
def searchBoxSearch (guides : List Guide) (query : Str) : List Guide :=
  if 2 ≤ query.length then
    (sortByKeyDesc (fun g => getSimpleScore g query)
      (guides.filter (fun g => searchBoxFilter g query))).take 8
  else []

/-!  Elementary facts about the string model. -/

lemma pfx_iff (a : Str) : ∀ b, pfx a b = true ↔ ∃ t, a ++ t = b := by
  induction a with
  | nil => intro b; simp [pfx]
  | cons x xs ih =>
    intro b
    cases b with
    | nil => simp [pfx]
    | cons y ys =>
      by_cases h : x = y
      · subst h
        simp [pfx, ih ys]
      · simp only [pfx, if_neg h]
        constructor
        · intro hf; exact absurd hf (by decide)
        · rintro ⟨t, ht⟩
          injection ht with h1 _
          exact absurd h1 h

lemma pfx_refl (a : Str) : pfx a a = true := (pfx_iff a a).2 ⟨[], by simp⟩

lemma pfx_length_le {a b : Str} (h : pfx a b = true) : a.length ≤ b.length := by
  obtain ⟨t, rfl⟩ := (pfx_iff a b).1 h
  simp

lemma length_asciiLower (s : Str) : (asciiLower s).length = s.length := by
  simp [asciiLower]

lemma find?_true {α : Type} {p : α → Bool} {l : List α} {a : α}
    (h : l.find? p = some a) : p a = true := List.find?_some h

lemma includes_iff (hay needle : Str) :
    includes hay needle = true ↔ ∃ i, pfx needle (hay.drop i) = true := by
  unfold includes indexOfSub
  constructor
  · intro h
    obtain ⟨i, hi⟩ := Option.isSome_iff_exists.1 h
    have h3 := find?_true hi
    simp only at h3
    exact ⟨i, h3⟩
  · rintro ⟨i, hi⟩
    rcases h : (List.range (hay.length + 1)).find? (fun i => pfx needle (hay.drop i)) with _ | j
    · exfalso
      have hall := List.find?_eq_none.1 h (min i hay.length) (by
        rw [List.mem_range]; omega)
      simp only [Bool.not_eq_true] at hall
      rcases le_or_lt i hay.length with hle | hlt
      · rw [min_eq_left hle] at hall
        rw [hi] at hall; cases hall
      · have h1 : hay.drop i = [] := by
          rw [List.drop_eq_nil_iff]; omega
        have h2 : hay.drop (min i hay.length) = [] := by
          rw [List.drop_eq_nil_iff]; omega
        rw [h2, ← h1, hi] at hall; cases hall
    · simp [h]

lemma includes_of_append_right {b needle : Str} (a : Str)
    (h : includes b needle = true) : includes (a ++ b) needle = true := by
  obtain ⟨i, hi⟩ := (includes_iff b needle).1 h
  refine (includes_iff (a ++ b) needle).2 ⟨a.length + i, ?_⟩
  have : (a ++ b).drop (a.length + i) = b.drop i := by
    rw [List.drop_append_eq_append_drop]
    simp
  rw [this]; exact hi

lemma includes_of_pfx_self {a t : Str} : includes (a ++ t) a = true :=
  (includes_iff (a ++ t) a).2 ⟨0, by simpa using (pfx_iff a (a ++ t)).2 ⟨t, rfl⟩⟩

lemma includes_refl (a : Str) : includes a a = true := by
  have := @includes_of_pfx_self a []
  simpa using this

/-!  Claim C8: symmetry and reflexivity-zero of `levenshteinDistance`. -/

/-- C8: the Levenshtein distance function of `SearchBox.js` is symmetric,
`distance(a,b) = distance(b,a)` for all strings `a`, `b`, and
`distance(a,a) = 0` for every string `a`. -/
theorem levenshteinDistance_symm_and_self_zero :
    (∀ a b : Str, levenshteinDistance a b = levenshteinDistance b a) ∧
    (∀ a : Str, levenshteinDistance a a = 0) :=
  ⟨fun a b => lmat_symm a b b.length a.length,
   fun a => lmat_diag a a.length⟩

/-!  Claim C5: the typo query `"nginix"` against the field `"nginx"`. -/

/-- Model of the edit-distance acceptance threshold of
`SearchBox.js` line 202: `Math.floor(Math.max(len(query), len(word)) * 0.3)`. -/
def sbMaxEditDistance (qLen wLen : Nat) : ℤ := ⌊((max qLen wLen : ℚ)) * (3/10)⌋

/-- C5 counterexample: contrary to the claim, the fuzzy matcher
(`FuzzySearch.fuzzyMatch`, which has no edit-distance tier at all) reports
no match for query `"nginix"` against field `"nginx"` — the query is longer
than the text, so the matcher short-circuits to score 0 with no matches. -/
theorem fuzzyMatch_nginix_nginx_no_match :
    FuzzySearch.fuzzyMatch (str "nginix") (str "nginx") = ⟨0, []⟩ := by
  decide

/-- C5 amended: `FuzzySearch.fuzzyMatch` reports no match for `"nginix"`
against `"nginx"` (it has no edit-distance tier and the query is longer
than the text); the Levenshtein helper of `SearchBox.js` does compute
distance 1, which is within the acceptance threshold
`floor(0.3 * max(6, 5)) = 1` of its line 202. -/
theorem nginix_nginx_edit_distance_facts :
    FuzzySearch.fuzzyMatch (str "nginix") (str "nginx") = ⟨0, []⟩ ∧
    levenshteinDistance (str "nginix") (str "nginx") = 1 ∧
    ((levenshteinDistance (str "nginix") (str "nginx") : ℤ)
      ≤ sbMaxEditDistance (str "nginix").length (str "nginx").length) ∧
    sbMaxEditDistance (str "nginix").length (str "nginx").length = 1 := by
  have hd : sbMaxEditDistance (str "nginix").length (str "nginx").length = 1 := by
    have h6 : (str "nginix").length = 6 := rfl
    have h5 : (str "nginx").length = 5 := rfl
    rw [sbMaxEditDistance, h6, h5]
    rw [show (((6 : Nat) : ℚ) ⊔ ((5 : Nat) : ℚ)) * (3/10) = 9/5 from by norm_num]
    exact Int.floor_eq_iff.2 ⟨by norm_num, by norm_num⟩
  have hl : levenshteinDistance (str "nginix") (str "nginx") = 1 := by decide
  exact ⟨by decide, hl, by rw [hl, hd]; norm_num, hd⟩

/-!  Claim C4: the character-subsequence tier consumes the whole query or
fails with no partial credit. -/

lemma charScanGo_queryIndex_iff (query text : Str) :
    ∀ (rem : List Char) (tIdx : Nat) (st : CharScanState),
      st.queryIndex ≤ query.length →
      ((charScanGo query text rem tIdx st).queryIndex = query.length ↔
        List.Sublist (query.drop st.queryIndex) rem) := by
  intro rem
  induction rem with
  | nil =>
    intro tIdx st hle
    simp only [charScanGo, List.sublist_nil, List.drop_eq_nil_iff]
    omega
  | cons c rest ih =>
    intro tIdx st hle
    by_cases hlt : st.queryIndex < query.length
    · have hq : query.drop st.queryIndex
          = query[st.queryIndex] :: query.drop (st.queryIndex + 1) :=
        List.drop_eq_getElem_cons hlt
      have hgd : query.getD st.queryIndex ' ' = query[st.queryIndex] := by
        simp [List.getD_eq_getElem?_getD, List.getElem?_eq_getElem hlt]
      rw [charScanGo, if_pos hlt]
      by_cases hc : c = query.getD st.queryIndex ' '
      · rw [if_pos hc]
        rw [ih _ _ (by simp; omega)]
        simp only []
        rw [hq, hc, hgd, List.cons_sublist_cons]
      · rw [if_neg hc]
        rw [ih _ _ hle, hq]
        constructor
        · intro h
          exact h.cons c
        · intro h
          cases h with
          | cons _ h2 => exact h2
          | cons₂ _ h2 => exact absurd hgd.symm hc
    · have heq : st.queryIndex = query.length := by omega
      rw [charScanGo, if_neg hlt]
      simp [heq, List.drop_length]

/-- C4 (amended general rule): the character-subsequence tier counts as a
match only when it can consume the entire query in order; when the query is
not a subsequence of the text, `fuzzyCharacterMatch` fails entirely, with
score 0 and no partial credit. -/
theorem fuzzyCharacterMatch_of_not_sublist (query text : Str)
    (h : ¬ List.Sublist query text) :
    fuzzyCharacterMatch query text = ⟨0, []⟩ := by
  unfold fuzzyCharacterMatch
  have hiff := charScanGo_queryIndex_iff query text text 0 ⟨0, [], 0, -1, 0⟩ (by simp)
  simp only [List.drop_zero] at hiff
  rw [if_neg (fun hq => h (hiff.1 hq))]

/-- C4 witness: for the query `"xq"` and text `"ab"` (not a subsequence)
the tier reports score 0 and no matches. -/
theorem fuzzyCharacterMatch_of_not_sublist_witness :
    ¬ List.Sublist (str "xq") (str "ab") ∧
      fuzzyCharacterMatch (str "xq") (str "ab") = ⟨0, []⟩ :=
  ⟨by decide, fuzzyCharacterMatch_of_not_sublist (str "xq") (str "ab") (by decide)⟩

/-- C4 counterexample: contrary to the claim's instantiation, the query
`"ngx"` against the field `"nginx"` does succeed at the character tier —
`x` occurs in `"nginx"` at index 4, so all of `n`, `g`, `x` are found in
order and `fuzzyMatch` reports a positive-score character-tier match
(score 0.7, merged spans `[0,2)` and `[4,5)`), not "no match". -/
theorem fuzzyMatch_ngx_nginx_matches :
    FuzzySearch.fuzzyMatch (str "ngx") (str "nginx")
        = fuzzyCharacterMatch (str "ngx") (str "nginx") ∧
      (FuzzySearch.fuzzyMatch (str "ngx") (str "nginx")).score = 7/10 ∧
      (FuzzySearch.fuzzyMatch (str "ngx") (str "nginx")).matchList ≠ [] := by
  refine ⟨by with_unfolding_all decide, by with_unfolding_all decide, by decide⟩

/-!  Claim C7: thesaurus expansion always contains the normalized term. -/

lemma mem_addTerm {t : Str} {l : List Str} (x : Str) (h : t ∈ l) : t ∈ addTerm l x := by
  unfold addTerm
  split
  · exact h
  · exact List.mem_append_left _ h

lemma mem_foldl_addTerm {t : Str} :
    ∀ (l : List Str) (acc : List Str), t ∈ acc → t ∈ l.foldl addTerm acc := by
  intro l
  induction l with
  | nil => intro acc h; exact h
  | cons x xs ih => intro acc h; exact ih (addTerm acc x) (mem_addTerm x h)

lemma mem_foldl_kwStep {t : Str} {n : Str} :
    ∀ (l : List (Str × List Str)) (acc : List Str), t ∈ acc →
      t ∈ l.foldl
        (fun acc kv =>
          if includes kv.1 n || includes n kv.1 then
            kv.2.foldl addTerm (addTerm acc kv.1)
          else acc)
        acc := by
  intro l
  induction l with
  | nil => intro acc h; exact h
  | cons kv kvs ih =>
    intro acc h
    apply ih
    dsimp only
    split
    · exact mem_foldl_addTerm kv.2 _ (mem_addTerm kv.1 h)
    · exact h

/-- C7: for every input term, the thesaurus expansion contains the
normalized (lower-cased, trimmed) input term — `expandSearchQuery` seeds
its set with it and only ever adds further terms, so the result is at
minimum that singleton and there is no error condition.  For a term that is
already lowercase and trimmed (the input contract of the spec), this is the
term itself. -/
theorem expandSearchQuery_contains_normalized (query : Str) :
    jsTrim (asciiLower query) ∈ expandSearchQuery query := by
  unfold expandSearchQuery
  dsimp only
  have hbase : jsTrim (asciiLower query) ∈ [jsTrim (asciiLower query)] := by simp
  have hbase2 :
      jsTrim (asciiLower query) ∈
        (match lookupKeyword (jsTrim (asciiLower query)) with
          | some aliases => aliases.foldl addTerm [jsTrim (asciiLower query)]
          | none => [jsTrim (asciiLower query)]) := by
    rcases lookupKeyword (jsTrim (asciiLower query)) with _ | aliases
    · exact hbase
    · exact mem_foldl_addTerm aliases _ hbase
  split
  · exact mem_foldl_kwStep SEARCH_KEYWORDS _ hbase2
  · exact hbase2

/-!  Claims C3 and C10: behaviour on queries shorter than the minimum
length. -/

/-- C3: a query that is empty or shorter than 2 characters short-circuits
the session-level search: `SearchManager.search` returns the empty result
list (a successful, non-error outcome) without scoring any catalog entry,
and the SearchBox debounced search does the same. -/
theorem searchManager_short_query_empty (data guides : List Guide) (query : Str)
    (h : query.length < 2) :
    SearchManager.search data query = [] ∧ searchBoxSearch guides query = [] := by
  constructor
  · unfold SearchManager.search
    rw [if_pos h]
  · unfold searchBoxSearch
    rw [if_neg (by omega)]

/-- C3 witness: the one-character query `"n"` yields the empty result list
on a nonempty catalog. -/
theorem searchManager_short_query_empty_witness :
    SearchManager.search [⟨str "nginx", str "NGINX", [], [], [], [], 3, []⟩] (str "n") = []
      ∧ searchBoxSearch [⟨str "nginx", str "NGINX", [], [], [], [], 3, []⟩] (str "n") = [] :=
  searchManager_short_query_empty _ _ (str "n") (by decide)

/-- C10: for a query shorter than 2 characters (the `!query ||
query.length < 2` guard, which also covers the null and empty query),
`FuzzySearch.search` does not return an empty list: it returns one result
per catalog item, in original catalog order, each with score 0 and an empty
matches list; `FuzzySearch.searchIndex` behaves the same on indexed items,
and the empty-result short-circuit exists only in `SearchManager.search`. -/
theorem fuzzySearch_short_query_maps_items (items : List Guide)
    (idx : List IndexedGuide) (query : Str) (h : query.length < 2) :
    (FuzzySearch.search items query).map (fun r => r.item) = items ∧
    (∀ r ∈ FuzzySearch.search items query, r.score = 0 ∧ r.matchList = []) ∧
    (FuzzySearch.searchIndex idx query).map (fun r => r.item)
      = idx.map (fun it => it.guide) ∧
    (∀ r ∈ FuzzySearch.searchIndex idx query, r.score = 0 ∧ r.matchList = []) ∧
    SearchManager.search items query = [] := by
  refine ⟨?_, ?_, ?_, ?_, ?_⟩
  · unfold FuzzySearch.search
    rw [if_pos h, List.map_map]
    exact List.map_id items
  · intro r hr
    unfold FuzzySearch.search at hr
    rw [if_pos h] at hr
    obtain ⟨a, _, rfl⟩ := List.mem_map.1 hr
    exact ⟨rfl, rfl⟩
  · unfold FuzzySearch.searchIndex
    rw [if_pos h, List.map_map]
    exact List.map_congr_left (fun a _ => rfl)
  · intro r hr
    unfold FuzzySearch.searchIndex at hr
    rw [if_pos h] at hr
    obtain ⟨a, _, rfl⟩ := List.mem_map.1 hr
    exact ⟨rfl, rfl⟩
  · unfold SearchManager.search
    rw [if_pos h]

/-- C10 witness: a singleton catalog with the one-character query `"n"`. -/
theorem fuzzySearch_short_query_maps_items_witness :
    (FuzzySearch.search [⟨str "nginx", str "NGINX", [], [], [], [], 3, []⟩] (str "n")).map
        (fun r => r.item) = [⟨str "nginx", str "NGINX", [], [], [], [], 3, []⟩] ∧
    (∀ r ∈ FuzzySearch.search [⟨str "nginx", str "NGINX", [], [], [], [], 3, []⟩] (str "n"),
        r.score = 0 ∧ r.matchList = []) ∧
    (FuzzySearch.searchIndex [] (str "n")).map (fun r => r.item)
        = ([] : List IndexedGuide).map (fun it => it.guide) ∧
    (∀ r ∈ FuzzySearch.searchIndex [] (str "n"), r.score = 0 ∧ r.matchList = []) ∧
    SearchManager.search [⟨str "nginx", str "NGINX", [], [], [], [], 3, []⟩] (str "n") = [] :=
  fuzzySearch_short_query_maps_items _ [] (str "n") (by decide)

/-!  Claim C2: ordering of the result list. -/

lemma mem_insertByKeyDesc {α : Type} (key : α → ℚ) (r x : α) :
    ∀ l, x ∈ insertByKeyDesc key r l ↔ x = r ∨ x ∈ l := by
  intro l
  induction l with
  | nil => simp [insertByKeyDesc]
  | cons y ys ih =>
    unfold insertByKeyDesc
    split
    · simp
    · simp [ih]
      tauto

lemma mem_sortByKeyDesc {α : Type} (key : α → ℚ) (x : α) :
    ∀ l, x ∈ sortByKeyDesc key l ↔ x ∈ l := by
  intro l
  induction l with
  | nil => simp [sortByKeyDesc]
  | cons y ys ih =>
    unfold sortByKeyDesc
    rw [mem_insertByKeyDesc, ih]
    simp

lemma sorted_insertByKeyDesc {α : Type} (key : α → ℚ) (r : α) :
    ∀ l, List.Pairwise (fun a b => key b ≤ key a) l →
      List.Pairwise (fun a b => key b ≤ key a) (insertByKeyDesc key r l) := by
  intro l
  induction l with
  | nil => intro _; simp [insertByKeyDesc]
  | cons y ys ih =>
    intro hp
    rw [List.pairwise_cons] at hp
    unfold insertByKeyDesc
    split
    · rename_i hyr
      rw [List.pairwise_cons]
      refine ⟨?_, List.pairwise_cons.2 hp⟩
      intro z hz
      rcases List.mem_cons.1 hz with rfl | hz2
      · exact hyr
      · exact le_trans (hp.1 z hz2) hyr
    · rename_i hyr
      rw [List.pairwise_cons]
      refine ⟨?_, ih hp.2⟩
      intro z hz
      rcases (mem_insertByKeyDesc key r z ys).1 hz with rfl | hz2
      · exact le_of_not_le hyr
      · exact hp.1 z hz2

lemma sorted_sortByKeyDesc {α : Type} (key : α → ℚ) :
    ∀ l, List.Pairwise (fun a b => key b ≤ key a) (sortByKeyDesc key l) := by
  intro l
  induction l with
  | nil => simp [sortByKeyDesc]
  | cons y ys ih => exact sorted_insertByKeyDesc key y _ ih

/-- C2 (amended): for every query of length ≥ 2 and every catalog, the
result list of `FuzzySearch.search` is sorted by non-increasing score (the
comparator is `(a, b) => b.score - a.score` and nothing else: no stars or
displayName tie-break exists in the code). -/
theorem fuzzySearch_sorted_by_score (items : List Guide) (query : Str)
    (h : 2 ≤ query.length) :
    List.Pairwise (fun a b => b.score ≤ a.score) (FuzzySearch.search items query) := by
  unfold FuzzySearch.search
  rw [if_neg (by omega)]
  exact sorted_sortByKeyDesc (fun (r : SearchResult) => r.score) _

/-- C2 witness: a concrete two-item catalog with the query `"redis"`. -/
theorem fuzzySearch_sorted_by_score_witness :
    2 ≤ (str "redis").length ∧
      List.Pairwise (fun a b => b.score ≤ a.score)
        (FuzzySearch.search [⟨str "redis", str "zzz", [], [], [], [], 0, []⟩,
          ⟨str "redis", str "aaa", [], [], [], [], 5, []⟩] (str "redis")) :=
  ⟨by decide, fuzzySearch_sorted_by_score _ (str "redis") (by decide)⟩

/-- Lexicographic `≤` on strings (character-code order), the ascending
`displayName` tie-break demanded by the claim. -/
def lexLe : Str → Str → Bool
  | [], _ => true
  | _ :: _, [] => false
  | a :: as, b :: bs => if a = b then lexLe as bs else decide (a < b)

/-- The strict-dominance relation the claim asserts between consecutive
results: higher score first; on score ties, higher stars first; on star
ties, lexicographically smaller displayName first. -/
def specOrderedAfterB (a b : SearchResult) : Bool :=
  decide (b.score < a.score)
    || (decide (a.score = b.score)
        && (decide (b.item.stars < a.item.stars)
            || (decide (a.item.stars = b.item.stars)
                && lexLe a.item.displayName b.item.displayName)))

/-- Whether consecutive elements of the list satisfy the claim's ordering. -/
def specSortedB : List SearchResult → Bool
  | [] => true
  | [_] => true
  | a :: b :: rest => specOrderedAfterB a b && specSortedB (b :: rest)

/-- C2 counterexample: on the catalog `[{name "redis", displayName "zzz",
stars 0}, {name "redis", displayName "aaa", stars 5}]` with query
`"redis"`, both results score exactly 3, yet the first result has 0 stars
and displayName `"zzz"` while the second has 5 stars and `"aaa"` — the code
sorts by score alone (stably), so the claimed stars/displayName tie-break
does not hold. -/
theorem fuzzySearch_not_spec_sorted :
    specSortedB
        (FuzzySearch.search [⟨str "redis", str "zzz", [], [], [], [], 0, []⟩,
          ⟨str "redis", str "aaa", [], [], [], [], 5, []⟩] (str "redis")) = false ∧
    (FuzzySearch.search [⟨str "redis", str "zzz", [], [], [], [], 0, []⟩,
          ⟨str "redis", str "aaa", [], [], [], [], 5, []⟩] (str "redis")).map
        (fun (r : SearchResult) => (r.score, r.item.stars)) = [(3, 0), (3, 5)] := by
  constructor
  · with_unfolding_all decide
  · with_unfolding_all decide

/-!  Claim C6: there is no minimum-length gate on the character tier of
`FuzzySearch.fuzzyMatch`. -/

/-- C6 (amended): `FuzzySearch.fuzzyMatch` attempts the
character-subsequence tier for queries of every length: whenever the query
fits in the text and the exact-substring and word-boundary tiers fail, the
result is exactly `fuzzyCharacterMatch`'s result (which can be a match even
for a 2-character query).  The `len(query) >= 3` gate exists only in the
SearchBox component's inline filter, where a query shorter than 3
characters can match only via the direct-substring or word-start tiers. -/
theorem fuzzyMatch_no_length_gate (query text : Str) (g : Guide)
    (hlen : query.length ≤ text.length)
    (hsub : indexOfSub text query = none)
    (hwb : wbIndex query text = none) :
    FuzzySearch.fuzzyMatch query text = fuzzyCharacterMatch query text ∧
      (query.length < 3 →
        searchBoxFilter g query = (searchBoxDirect g query || searchBoxWordStart g query)) := by
  constructor
  · unfold FuzzySearch.fuzzyMatch
    rw [if_neg (by omega), hsub, hwb]
  · intro hq
    unfold searchBoxFilter
    rw [if_neg (by rw [length_asciiLower]; omega), Bool.or_false]

/-- C6 witness: query `"xy"` (length 2) and text `"ab"`, where all
hypotheses hold concretely. -/
theorem fuzzyMatch_no_length_gate_witness :
    FuzzySearch.fuzzyMatch (str "xy") (str "ab") = fuzzyCharacterMatch (str "xy") (str "ab") ∧
      ((str "xy").length < 3 →
        searchBoxFilter ⟨str "nginx", [], [], [], [], [], 0, []⟩ (str "xy")
          = (searchBoxDirect ⟨str "nginx", [], [], [], [], [], 0, []⟩ (str "xy")
            || searchBoxWordStart ⟨str "nginx", [], [], [], [], [], 0, []⟩ (str "xy"))) :=
  fuzzyMatch_no_length_gate (str "xy") (str "ab") ⟨str "nginx", [], [], [], [], [], 0, []⟩
    (by decide) (by decide) (by decide)

/-- C6 counterexample: the 2-character query `"xy"` against the text
`"axby"` fails the exact-substring and word-boundary tiers, yet the matcher
does not report "no match": the character tier runs (no length ≥ 3 gate
exists in `fuzzyMatch`) and produces a positive-score match. -/
theorem fuzzyMatch_two_char_query_char_tier :
    (str "xy").length = 2 ∧
    indexOfSub (str "axby") (str "xy") = none ∧
    wbIndex (str "xy") (str "axby") = none ∧
    FuzzySearch.fuzzyMatch (str "xy") (str "axby")
      = fuzzyCharacterMatch (str "xy") (str "axby") ∧
    (FuzzySearch.fuzzyMatch (str "xy") (str "axby")).score = 43/50 ∧
    (FuzzySearch.fuzzyMatch (str "xy") (str "axby")).matchList ≠ [] := by
  refine ⟨by decide, by decide, by decide, by with_unfolding_all decide,
    by with_unfolding_all decide, by with_unfolding_all decide⟩

/-!  Claim C9: highlight spans — bounds and non-overlap. -/

/-- Validity of a span list against the text it describes: every span is a
nonempty in-bounds half-open range, and the spans are ordered and pairwise
disjoint (hence non-overlapping). -/
def spansOk (ms : List MatchSpan) (text : Str) : Prop :=
  (∀ m ∈ ms, m.start < m.endPos ∧ m.endPos ≤ text.length) ∧
    List.Pairwise (fun a b => a.endPos ≤ b.start) ms

/-- Boolean validity of the span list carried by a search result against a
field value (used to exhibit a violation on a concrete input). -/
def spansOkB (ms : List KeyedMatch) (text : Str) : Bool :=
  ms.all (fun m => decide (m.start < m.endPos) && decide (m.endPos ≤ text.length))
    && disjointChainB ms
where
  disjointChainB : List KeyedMatch → Bool
    | [] => true
    | [_] => true
    | a :: b :: rest => decide (a.endPos ≤ b.start) && disjointChainB (b :: rest)

lemma indexOfSub_some_bound {hay needle : Str} {i : Nat}
    (h : indexOfSub hay needle = some i) : i + needle.length ≤ hay.length := by
  have hp := find?_true h
  simp only at hp
  have hlen := pfx_length_le hp
  rw [List.length_drop] at hlen
  have hmem := List.mem_of_find?_eq_some h
  rw [List.mem_range] at hmem
  omega

lemma wbIndex_some_bound {query text : Str} {i : Nat}
    (h : wbIndex query text = some i) : i + query.length ≤ text.length := by
  have hp := find?_true h
  simp only [Bool.and_eq_true] at hp
  have hlen := pfx_length_le hp.2
  rw [length_asciiLower, length_asciiLower, List.length_drop] at hlen
  have hmem := List.mem_of_find?_eq_some h
  rw [List.mem_range] at hmem
  omega

lemma charScanGo_spans (query text : Str) :
    ∀ (rem : List Char) (tIdx : Nat) (st : CharScanState),
      tIdx + rem.length = text.length →
      (∀ m ∈ st.matchList, m.endPos = m.start + 1 ∧ m.start < tIdx) →
      List.Pairwise (fun a b => a.start < b.start) st.matchList →
      (∀ m ∈ (charScanGo query text rem tIdx st).matchList,
          m.endPos = m.start + 1 ∧ m.start < text.length) ∧
        List.Pairwise (fun a b => a.start < b.start)
          (charScanGo query text rem tIdx st).matchList := by
  intro rem
  induction rem with
  | nil =>
    intro tIdx st hlen hb hp
    rw [charScanGo]
    simp only [List.length_nil, Nat.add_zero] at hlen
    exact ⟨fun m hm => ⟨(hb m hm).1, by have := (hb m hm).2; omega⟩, hp⟩
  | cons c rest ih =>
    intro tIdx st hlen hb hp
    simp only [List.length_cons] at hlen
    rw [charScanGo]
    by_cases hqi : st.queryIndex < query.length
    · rw [if_pos hqi]
      dsimp only
      by_cases hc : c = query.getD st.queryIndex ' '
      · rw [if_pos hc]
        apply ih (tIdx + 1) _ (by omega)
        · intro m hm
          rcases List.mem_append.1 hm with hm1 | hm2
          · exact ⟨(hb m hm1).1, by have := (hb m hm1).2; omega⟩
          · rcases List.mem_singleton.1 hm2 with rfl
            exact ⟨rfl, Nat.lt_succ_self tIdx⟩
        · rw [List.pairwise_append]
          refine ⟨hp, List.pairwise_singleton _ _, ?_⟩
          intro a ha b hb2
          rcases List.mem_singleton.1 hb2 with rfl
          exact (hb a ha).2
      · rw [if_neg hc]
        exact ih (tIdx + 1) st (by omega)
          (fun m hm => ⟨(hb m hm).1, by have := (hb m hm).2; omega⟩) hp
    · rw [if_neg hqi]
      exact ⟨fun m hm => ⟨(hb m hm).1, by have := (hb m hm).2; omega⟩, hp⟩

lemma mergeGo_ok (L : Nat) :
    ∀ (l : List MatchSpan) (current : MatchSpan),
      current.start < current.endPos → current.endPos ≤ L →
      (∀ m ∈ l, m.start < m.endPos ∧ m.endPos ≤ L) →
      List.Pairwise (fun a b => a.endPos ≤ b.start) (current :: l) →
      (∀ m ∈ mergeGo current l, m.start < m.endPos ∧ m.endPos ≤ L) ∧
        List.Pairwise (fun a b => a.endPos ≤ b.start) (mergeGo current l) ∧
        (∀ m ∈ mergeGo current l, current.start ≤ m.start) := by
  intro l
  induction l with
  | nil =>
    intro current h1 h2 _ _
    rw [mergeGo]
    exact ⟨fun m hm => by rcases List.mem_singleton.1 hm with rfl; exact ⟨h1, h2⟩,
      List.pairwise_singleton _ _,
      fun m hm => by rcases List.mem_singleton.1 hm with rfl; exact le_refl _⟩
  | cons m rest ih =>
    intro current h1 h2 hall hp
    rw [List.pairwise_cons] at hp
    have hm := hall m (List.mem_cons_self m rest)
    have hcm : current.endPos ≤ m.start := hp.1 m (List.mem_cons_self m rest)
    rw [mergeGo]
    by_cases hms : m.start = current.endPos
    · rw [if_pos hms]
      have hrec := ih { current with endPos := m.endPos }
        (by simp; omega) (by simp; exact hm.2)
        (fun x hx => hall x (List.mem_cons_of_mem m hx))
        (by
          rw [List.pairwise_cons]
          rw [List.pairwise_cons] at hp
          exact ⟨fun x hx => by simpa using hp.2.1 x hx, hp.2.2⟩)
      exact ⟨hrec.1, hrec.2.1, fun x hx => le_trans (by simp) (hrec.2.2 x hx)⟩
    · rw [if_neg hms]
      have hrec := ih m hm.1 hm.2
        (fun x hx => hall x (List.mem_cons_of_mem m hx))
        (by
          rw [List.pairwise_cons] at hp ⊢
          exact ⟨hp.2.1, hp.2.2⟩)
      refine ⟨?_, ?_, ?_⟩
      · intro x hx
        rcases List.mem_cons.1 hx with rfl | hx2
        · exact ⟨h1, h2⟩
        · exact hrec.1 x hx2
      · rw [List.pairwise_cons]
        refine ⟨?_, hrec.2.1⟩
        intro x hx
        exact le_trans hcm (hrec.2.2 x hx)
      · intro x hx
        rcases List.mem_cons.1 hx with rfl | hx2
        · exact le_refl _
        · exact le_trans (le_of_lt (lt_of_lt_of_le h1 hcm)) (hrec.2.2 x hx2)

lemma merge_spans_ok {L : Nat} {ms : List MatchSpan}
    (hb : ∀ m ∈ ms, m.endPos = m.start + 1 ∧ m.start < L)
    (hpw : List.Pairwise (fun a b => a.start < b.start) ms) :
    (∀ m ∈ mergeConsecutiveMatches ms, m.start < m.endPos ∧ m.endPos ≤ L) ∧
      List.Pairwise (fun a b => a.endPos ≤ b.start) (mergeConsecutiveMatches ms) := by
  cases ms with
  | nil => exact ⟨by simp [mergeConsecutiveMatches], by simp [mergeConsecutiveMatches]⟩
  | cons m rest =>
    have hd : ∀ x ∈ m :: rest, x.start < x.endPos ∧ x.endPos ≤ L := by
      intro x hx
      have := hb x hx
      omega
    have hq : List.Pairwise (fun (a b : MatchSpan) => a.endPos ≤ b.start) (m :: rest) := by
      refine List.Pairwise.imp_of_mem ?_ hpw
      intro a b ha _ hab
      have := hb a ha
      omega
    rw [mergeConsecutiveMatches]
    have hm := hd m (List.mem_cons_self m rest)
    have := mergeGo_ok L rest m hm.1 hm.2
      (fun x hx => hd x (List.mem_cons_of_mem m hx)) hq
    exact ⟨this.1, this.2.1⟩

lemma fuzzyCharacterMatch_spans_ok (query text : Str) :
    spansOk (fuzzyCharacterMatch query text).matchList text := by
  unfold fuzzyCharacterMatch
  dsimp only
  obtain ⟨hb, hpw⟩ := charScanGo_spans query text text 0 ⟨0, [], 0, -1, 0⟩
    (by simp) (by simp) List.Pairwise.nil
  split
  · have := merge_spans_ok (L := text.length)
      (fun m hm => hb m hm) hpw
    exact ⟨this.1, this.2⟩
  · exact ⟨by simp, List.Pairwise.nil⟩

/-- C9 (amended): for every nonempty query, the span list produced by the
fuzzy matcher is valid for the text it matched against: every span is a
nonempty in-bounds range of that text and the spans are ordered and
pairwise disjoint.  (`FuzzySearch.search` then copies these spans verbatim
onto the result with `value` = the original field text, whose length equals
the lowered text it matched; the violation the counterexample exhibits
arises only because `SearchManager.search` applies one field's spans to a
different field.) -/
theorem fuzzyMatch_spans_ok (query text : Str) (h : query ≠ []) :
    spansOk (FuzzySearch.fuzzyMatch query text).matchList text := by
  have hq : 0 < query.length := List.length_pos.2 h
  unfold FuzzySearch.fuzzyMatch
  split
  · exact ⟨by simp, List.Pairwise.nil⟩
  · rename_i hnlt
    rcases hsub : indexOfSub text query with _ | i
    · rcases hwb : wbIndex query text with _ | i
      · exact fuzzyCharacterMatch_spans_ok query text
      · have hbound := wbIndex_some_bound hwb
        refine ⟨?_, List.pairwise_singleton _ _⟩
        intro m hm
        rcases List.mem_singleton.1 hm with rfl
        exact ⟨show i < i + query.length by omega,
          show i + query.length ≤ text.length by omega⟩
    · have hbound := indexOfSub_some_bound hsub
      refine ⟨?_, List.pairwise_singleton _ _⟩
      intro m hm
      rcases List.mem_singleton.1 hm with rfl
      exact ⟨show i < i + query.length by omega,
        show i + query.length ≤ text.length by omega⟩

/-- C9 witness: the matcher's spans for query `"ngx"` on text `"nginx"`
are in bounds and non-overlapping. -/
theorem fuzzyMatch_spans_ok_witness :
    (str "ngx") ≠ [] ∧
      spansOk (FuzzySearch.fuzzyMatch (str "ngx") (str "nginx")).matchList (str "nginx") :=
  ⟨by decide, fuzzyMatch_spans_ok (str "ngx") (str "nginx") (by decide)⟩

/-- C9 counterexample: for the catalog entry
`{name "kubernetes", displayName "", description "db"}` and query
`"kubernetes"`, the one search result carries the span `[0, 10)` computed
on the `name` field, but `SearchManager.search` applies that same span list
to the 2-character `description` field when building
`highlightedDescription` — the span exceeds the bounds of the field value
it is applied to, refuting the claimed invariant. -/
theorem searchManager_span_out_of_description_bounds :
    (FuzzySearch.searchIndex
        (FuzzySearch.createIndex [⟨str "kubernetes", [], str "db", [], [], [], 0, []⟩])
        (str "kubernetes")).map
      (fun (r : SearchResult) =>
        (r.matchList.map (fun m => (m.start, m.endPos)),
         spansOkB r.matchList (str "db")))
      = [([(0, 10)], false)] ∧
    (SearchManager.search [⟨str "kubernetes", [], str "db", [], [], [], 0, []⟩]
        (str "kubernetes")).map (fun (r : FormattedResult) => r.highlightedDescription)
      = [markOpen ++ str "db"  ++ markClose] := by
  refine ⟨by with_unfolding_all decide, by with_unfolding_all decide⟩

/-!  Claim C1: an exact displayName match attains the maximal total score.
First, normalization facts (`toLowerCase` / `trim`). -/

lemma toNat_ofNat_of_le (n : Nat) (h : 65 ≤ n ∧ n ≤ 90) :
    (Char.ofNat (n + 32)).toNat = n + 32 := by
  have hv : (n + 32).isValidChar := Or.inl (by omega)
  unfold Char.ofNat
  rw [dif_pos hv]
  unfold Char.ofNatAux Char.toNat
  simp [UInt32.toNat, BitVec.toNat_ofNatLt]

lemma lowerChar_idem (c : Char) : lowerChar (lowerChar c) = lowerChar c := by
  unfold lowerChar
  by_cases h : 65 ≤ c.toNat ∧ c.toNat ≤ 90
  · rw [if_pos h, if_neg (by rw [toNat_ofNat_of_le c.toNat h]; omega)]
  · rw [if_neg h, if_neg h]

lemma asciiLower_idem (s : Str) : asciiLower (asciiLower s) = asciiLower s := by
  unfold asciiLower
  rw [List.map_map]
  exact List.map_congr_left (fun c _ => lowerChar_idem c)

lemma mem_rstrip {c : Char} {s : Str} (h : c ∈ rstrip s) : c ∈ s := by
  unfold rstrip at h
  rw [List.mem_reverse] at h
  have := (List.dropWhile_sublist (l := s.reverse) isJsSpace).subset h
  rwa [List.mem_reverse] at this

lemma mem_jsTrim {c : Char} {s : Str} (h : c ∈ jsTrim s) : c ∈ s := by
  unfold jsTrim at h
  exact (List.dropWhile_sublist (l := s) isJsSpace).subset (mem_rstrip h)

lemma asciiLower_jsTrim_asciiLower (s : Str) :
    asciiLower (jsTrim (asciiLower s)) = jsTrim (asciiLower s) := by
  have hmem : ∀ c ∈ jsTrim (asciiLower s), lowerChar c = c := by
    intro c hc
    obtain ⟨d, _, rfl⟩ := List.mem_map.1 (mem_jsTrim hc)
    exact lowerChar_idem d
  calc asciiLower (jsTrim (asciiLower s))
      = List.map lowerChar (jsTrim (asciiLower s)) := rfl
    _ = List.map id (jsTrim (asciiLower s)) := List.map_congr_left hmem
    _ = jsTrim (asciiLower s) := List.map_id _

lemma dropWhile_idem (p : Char → Bool) : ∀ s : Str,
    List.dropWhile p (List.dropWhile p s) = List.dropWhile p s := by
  intro s
  induction s with
  | nil => simp
  | cons c rest ih =>
    by_cases h : p c
    · rw [List.dropWhile_cons_of_pos h, ih]
    · rw [List.dropWhile_cons_of_neg h, List.dropWhile_cons_of_neg h]

lemma rstrip_idem (s : Str) : rstrip (rstrip s) = rstrip s := by
  unfold rstrip
  rw [List.reverse_reverse, dropWhile_idem]

lemma pfx_of_rstrip (s : Str) : pfx (rstrip s) s = true := by
  apply (pfx_iff _ _).2
  refine ⟨(s.reverse.takeWhile isJsSpace).reverse, ?_⟩
  unfold rstrip
  rw [← List.reverse_append, List.takeWhile_append_dropWhile, List.reverse_reverse]

lemma head_not_space_of_dropWhile (s : Str) :
    ∀ c rest, List.dropWhile isJsSpace s = c :: rest → isJsSpace c = false := by
  intro c rest h
  induction s with
  | nil => simp at h
  | cons x xs ih =>
    by_cases hx : isJsSpace x
    · rw [List.dropWhile_cons_of_pos hx] at h
      exact ih h
    · rw [List.dropWhile_cons_of_neg hx] at h
      injection h with h1 _
      rw [← h1]
      simpa using hx

lemma jsTrim_idem (s : Str) : jsTrim (jsTrim s) = jsTrim s := by
  unfold jsTrim
  have h1 : List.dropWhile isJsSpace (rstrip (List.dropWhile isJsSpace s))
      = rstrip (List.dropWhile isJsSpace s) := by
    rcases hr : rstrip (List.dropWhile isJsSpace s) with _ | ⟨c, rest⟩
    · simp
    · have hc : c ∈ List.dropWhile isJsSpace s := by
        have : c ∈ rstrip (List.dropWhile isJsSpace s) := by rw [hr]; simp
        exact mem_rstrip this
      have hphead : isJsSpace c = false := by
        obtain ⟨t, ht⟩ := (pfx_iff _ _).1 (pfx_of_rstrip (List.dropWhile isJsSpace s))
        rw [hr] at ht
        exact head_not_space_of_dropWhile s c (rest ++ t) (by rw [← ht]; simp)
      rw [List.dropWhile_cons_of_neg (by simp [hphead])]
  rw [h1, rstrip_idem]

lemma pfx_append_ext {x y : Str} (w : Str) (h : pfx x y = true) : pfx x (y ++ w) = true := by
  obtain ⟨v, rfl⟩ := (pfx_iff x y).1 h
  exact (pfx_iff _ _).2 ⟨v ++ w, by simp⟩

lemma dropWhile_eq_drop (p : Char → Bool) : ∀ s : Str,
    List.dropWhile p s = s.drop (s.takeWhile p).length := by
  intro s
  induction s with
  | nil => simp
  | cons c rest ih =>
    by_cases h : p c
    · rw [List.dropWhile_cons_of_pos h, List.takeWhile_cons_of_pos h, ih]
      simp
    · rw [List.dropWhile_cons_of_neg h, List.takeWhile_cons_of_neg h]
      simp

lemma includes_jsTrim_of_includes {hay s : Str} (h : includes hay s = true) :
    includes hay (jsTrim s) = true := by
  obtain ⟨i, hi⟩ := (includes_iff hay s).1 h
  obtain ⟨u, hu⟩ := (pfx_iff _ _).1 hi
  apply (includes_iff hay (jsTrim s)).2
  refine ⟨i + (s.takeWhile isJsSpace).length, ?_⟩
  have hale : (s.takeWhile isJsSpace).length ≤ s.length :=
    (List.takeWhile_sublist _).length_le
  have hdrop : hay.drop (i + (s.takeWhile isJsSpace).length)
      = s.drop (s.takeWhile isJsSpace).length ++ u := by
    rw [← List.drop_drop _ _ hay, ← hu]
    rw [List.drop_append_eq_append_drop]
    rw [Nat.sub_eq_zero_of_le hale, List.drop_zero]
  rw [hdrop]
  apply pfx_append_ext
  unfold jsTrim
  rw [dropWhile_eq_drop]
  exact pfx_of_rstrip _

lemma includes_joinSp_lower {p : Str} : ∀ (parts : List Str), p ∈ parts →
    includes (asciiLower (joinSp parts)) (asciiLower p) = true := by
  intro parts
  induction parts with
  | nil => intro h; cases h
  | cons x rest ih =>
    intro hmem
    rcases List.mem_cons.1 hmem with rfl | hmem2
    · cases rest with
      | nil =>
        rw [joinSp]
        exact includes_refl _
      | cons r rs =>
        rw [show joinSp (p :: r :: rs) = p ++ ' ' :: joinSp (r :: rs) from rfl]
        rw [show asciiLower (p ++ ' ' :: joinSp (r :: rs))
          = asciiLower p ++ asciiLower (' ' :: joinSp (r :: rs)) from List.map_append _ _ _]
        exact @includes_of_pfx_self (asciiLower p) _
    · have hrest : rest ≠ [] := by rintro rfl; cases hmem2
      obtain ⟨r, rs, rfl⟩ := List.exists_cons_of_ne_nil hrest
      rw [show joinSp (x :: r :: rs) = x ++ ' ' :: joinSp (r :: rs) from rfl]
      rw [show asciiLower (x ++ ' ' :: joinSp (r :: rs))
        = asciiLower x ++ asciiLower (' ' :: joinSp (r :: rs)) from List.map_append _ _ _]
      apply includes_of_append_right
      rw [show asciiLower (' ' :: joinSp (r :: rs))
        = lowerChar ' ' :: asciiLower (joinSp (r :: rs)) from rfl]
      have h2 : includes (lowerChar ' ' :: asciiLower (joinSp (r :: rs))) (asciiLower p)
          = true := by
        have := includes_of_append_right [lowerChar ' '] (ih hmem2)
        simpa using this
      exact h2

lemma ratMin_le_right (a b : ℚ) : ratMin a b ≤ b := by
  unfold ratMin
  split
  · assumption
  · exact le_refl b

lemma ratMin_eq_right {a b : ℚ} (h : b ≤ a) : ratMin a b = b := by
  unfold ratMin
  split
  · exact le_antisymm (by assumption) h
  · rfl

lemma fuzzyCharacterMatch_score_le_one (q t : Str) :
    (fuzzyCharacterMatch q t).score ≤ 1 := by
  unfold fuzzyCharacterMatch
  dsimp only
  split
  · exact ratMin_le_right _ _
  · show (0 : ℚ) ≤ 1
    norm_num

lemma fuzzyMatch_score_le_one (q t : Str) : (FuzzySearch.fuzzyMatch q t).score ≤ 1 := by
  unfold FuzzySearch.fuzzyMatch
  split
  · show (0 : ℚ) ≤ 1
    norm_num
  · split
    · show (1 : ℚ) ≤ 1
      norm_num
    · split
      · show ((9 : ℚ)/10) ≤ 1
        norm_num
      · exact fuzzyCharacterMatch_score_le_one _ _

lemma termStep_best_le_one {key value : Str} {a : BestAcc} (term : Str)
    (h : a.best ≤ 1) : (FuzzySearch.termStep key value a term).best ≤ 1 := by
  unfold FuzzySearch.termStep
  dsimp only
  split
  · show (FuzzySearch.fuzzyMatch term (asciiLower value)).score * (8/10) ≤ 1
    have h1 := fuzzyMatch_score_le_one term (asciiLower value)
    nlinarith
  · exact h

lemma termStep_best_eq_one {key value : Str} {a : BestAcc} (term : Str)
    (h : a.best = 1) : (FuzzySearch.termStep key value a term).best = 1 := by
  unfold FuzzySearch.termStep
  dsimp only
  rw [if_neg]
  · exact h
  · rw [h]
    exact not_lt.2 (fuzzyMatch_score_le_one term (asciiLower value))

lemma termFold_best_le_one {key value : Str} :
    ∀ (terms : List Str) (a : BestAcc), a.best ≤ 1 →
      (terms.foldl (FuzzySearch.termStep key value) a).best ≤ 1 := by
  intro terms
  induction terms with
  | nil => intro a h; exact h
  | cons t ts ih => intro a h; exact ih _ (termStep_best_le_one t h)

lemma termFold_best_eq_one {key value : Str} :
    ∀ (terms : List Str) (a : BestAcc), a.best = 1 →
      (terms.foldl (FuzzySearch.termStep key value) a).best = 1 := by
  intro terms
  induction terms with
  | nil => intro a h; exact h
  | cons t ts ih => intro a h; exact ih _ (termStep_best_eq_one t h)

lemma keyStep_best_le_one {nq : Str} {terms : List Str} {item : Guide} {acc : BestAcc}
    (key : Str) (h : acc.best ≤ 1) :
    (FuzzySearch.keyStep nq terms item acc key).best ≤ 1 := by
  unfold FuzzySearch.keyStep
  dsimp only
  split
  · exact h
  · apply termFold_best_le_one
    split
    · exact fuzzyMatch_score_le_one _ _
    · exact h

lemma keyStep_best_eq_one {nq : Str} {terms : List Str} {item : Guide} {acc : BestAcc}
    (key : Str) (h : acc.best = 1) :
    (FuzzySearch.keyStep nq terms item acc key).best = 1 := by
  unfold FuzzySearch.keyStep
  dsimp only
  split
  · exact h
  · apply termFold_best_eq_one
    rw [if_neg]
    · exact h
    · rw [h]
      exact not_lt.2 (fuzzyMatch_score_le_one _ _)

lemma fuzzyMatch_score_eq_one_of_includes {query text : Str}
    (hinc : includes text query = true) (hlen : query.length ≤ text.length) :
    (FuzzySearch.fuzzyMatch query text).score = 1 := by
  unfold FuzzySearch.fuzzyMatch
  rw [if_neg (by omega)]
  rcases hs : indexOfSub text query with _ | i
  · exfalso
    unfold includes at hinc
    rw [hs] at hinc
    cases hinc
  · rfl

lemma keyStep_displayName_best_eq_one {nq : Str} {terms : List Str} {item : Guide}
    {acc : BestAcc} (hdn : ¬ item.displayName = [])
    (hfm : (FuzzySearch.fuzzyMatch nq (asciiLower item.displayName)).score = 1)
    (hle : acc.best ≤ 1) :
    (FuzzySearch.keyStep nq terms item acc (str "displayName")).best = 1 := by
  have hgv : FuzzySearch.getValue item (str "displayName") = item.displayName := by
    unfold FuzzySearch.getValue
    rw [if_neg (by decide), if_pos rfl]
  unfold FuzzySearch.keyStep
  rw [hgv]
  dsimp only
  rw [if_neg hdn, hfm]
  by_cases hlt : acc.best < 1
  · rw [if_pos hlt]
    exact termFold_best_eq_one terms _ rfl
  · rw [if_neg hlt]
    exact termFold_best_eq_one terms _ (le_antisymm hle (not_lt.1 hlt))

lemma bestFuzzy_best_le_one (nq : Str) (terms : List Str) (item : Guide) :
    (FuzzySearch.bestFuzzy nq terms item).best ≤ 1 := by
  unfold FuzzySearch.bestFuzzy fsKeys
  rw [List.foldl_cons, List.foldl_cons, List.foldl_cons, List.foldl_nil]
  apply keyStep_best_le_one
  apply keyStep_best_le_one
  apply keyStep_best_le_one
  show (0 : ℚ) ≤ 1
  norm_num

lemma bestFuzzy_best_eq_one {nq : Str} (terms : List Str) {item : Guide}
    (hdn : ¬ item.displayName = [])
    (hfm : (FuzzySearch.fuzzyMatch nq (asciiLower item.displayName)).score = 1) :
    (FuzzySearch.bestFuzzy nq terms item).best = 1 := by
  unfold FuzzySearch.bestFuzzy fsKeys
  rw [List.foldl_cons, List.foldl_cons, List.foldl_cons, List.foldl_nil]
  apply keyStep_best_eq_one
  apply keyStep_displayName_best_eq_one hdn hfm
  apply keyStep_best_le_one
  show (0 : ℚ) ≤ 1
  norm_num

lemma calculateSearchScore_le_two (item : Guide) (q : Str) (terms : List Str) :
    calculateSearchScore item q terms ≤ 2 := by
  unfold calculateSearchScore
  exact ratMin_le_right _ _

lemma calculateSearchScore_exact_displayName {item : Guide} {q : Str} {terms : List Str}
    (hdn : asciiLower item.displayName = asciiLower q)
    (hne : ¬ item.displayName = [])
    (hterm : jsTrim (asciiLower q) ∈ terms) :
    calculateSearchScore item q terms = 2 := by
  have hparts : item.displayName ∈
      (([item.name, item.displayName, item.description, item.category,
        item.language] ++ item.topics).filter (fun s => ¬ s = [])) := by
    apply List.mem_filter.2
    refine ⟨by simp, by simpa using hne⟩
  have hs1 : includes (searchableTextOf item) (asciiLower q) = true := by
    rw [← hdn]
    unfold searchableTextOf
    exact includes_joinSp_lower _ hparts
  have hs2 : includes (searchableTextOf item) (jsTrim (asciiLower q)) = true :=
    includes_jsTrim_of_includes hs1
  have hs4 : includes (asciiLower item.displayName) (asciiLower q) = true := by
    rw [hdn]
    exact includes_refl _
  unfold calculateSearchScore
  dsimp only
  rw [if_pos hs1, if_pos (show (includes (asciiLower item.name) (asciiLower q)
    || includes (asciiLower item.displayName) (asciiLower q)) = true by
      rw [hs4, Bool.or_true])]
  apply ratMin_eq_right
  have hc1 : 0 < terms.countP (fun term => includes (searchableTextOf item) term) :=
    List.countP_pos_iff.2 ⟨jsTrim (asciiLower q), hterm, hs2⟩
  have h2 : (7/10 : ℚ) ≤
      ((terms.countP (fun term => includes (searchableTextOf item) term) : ℚ)) * (7/10) := by
    have hcast : (1 : ℚ) ≤
        ((terms.countP (fun term => includes (searchableTextOf item) term) : ℚ)) := by
      exact_mod_cast hc1
    nlinarith
  have h3 : (0 : ℚ) ≤ (((splitRuns isJsSpace (searchableTextOf item)).countP
      (fun word => includes word (asciiLower q)) : ℚ)) * (1/2) := by positivity
  have h5 : (0 : ℚ) ≤ (if 10 < item.stars then (1/10 : ℚ) else 0) := by
    split
    · norm_num
    · norm_num
  linarith

lemma length_rstrip_le (s : Str) : (rstrip s).length ≤ s.length := by
  unfold rstrip
  rw [List.length_reverse]
  calc (s.reverse.dropWhile isJsSpace).length
      ≤ s.reverse.length := (List.dropWhile_sublist _).length_le
    _ = s.length := List.length_reverse s

lemma length_jsTrim_le (s : Str) : (jsTrim s).length ≤ s.length := by
  unfold jsTrim
  calc (rstrip (s.dropWhile isJsSpace)).length
      ≤ (s.dropWhile isJsSpace).length := length_rstrip_le _
    _ ≤ s.length := (List.dropWhile_sublist _).length_le

lemma mem_searchGo {query nq : Str} {terms : List Str} {item : Guide} :
    ∀ (l : List Guide) (i : Nat), item ∈ l →
      fsThreshold ≤ FuzzySearch.totalScore query nq terms item →
      ∃ j, FuzzySearch.mkResult query nq terms j item
        ∈ FuzzySearch.searchGo query nq terms l i := by
  intro l
  induction l with
  | nil => intro i h _; cases h
  | cons x xs ih =>
    intro i hmem hpass
    rcases List.mem_cons.1 hmem with rfl | h2
    · refine ⟨i, ?_⟩
      rw [FuzzySearch.searchGo, if_pos hpass]
      exact List.mem_append_left _ (List.mem_singleton_self _)
    · obtain ⟨j, hj⟩ := ih (i + 1) h2 hpass
      refine ⟨j, ?_⟩
      rw [FuzzySearch.searchGo]
      exact List.mem_append_right _ hj

lemma searchGo_mem_inv {query nq : Str} {terms : List Str} :
    ∀ (l : List Guide) (i : Nat) (r : SearchResult),
      r ∈ FuzzySearch.searchGo query nq terms l i →
      ∃ it, it ∈ l ∧ r.score = FuzzySearch.totalScore query nq terms it := by
  intro l
  induction l with
  | nil => intro i r hr; cases hr
  | cons x xs ih =>
    intro i r hr
    rw [FuzzySearch.searchGo] at hr
    rcases List.mem_append.1 hr with h1 | h2
    · by_cases hpass : fsThreshold ≤ FuzzySearch.totalScore query nq terms x
      · rw [if_pos hpass] at h1
        rcases List.mem_singleton.1 h1 with rfl
        exact ⟨x, List.mem_cons_self x xs, rfl⟩
      · rw [if_neg hpass] at h1
        cases h1
    · obtain ⟨it, hmem, hsc⟩ := ih (i + 1) r h2
      exact ⟨it, List.mem_cons_of_mem x hmem, hsc⟩

lemma totalScore_le_three (query nq : Str) (terms : List Str) (item : Guide) :
    FuzzySearch.totalScore query nq terms item ≤ 3 := by
  unfold FuzzySearch.totalScore
  have h1 := calculateSearchScore_le_two item query terms
  have h2 := bestFuzzy_best_le_one nq terms item
  linarith

/-- C1 (amended): if a catalog entry's displayName lower-cases to the
query's lower-casing, that entry appears in `FuzzySearch.search`'s results
with a score at least as high as every result's score (an exact displayName
match attains the maximal total score 3 = capped keyword score 2 + maximal
fuzzy score 1).  It need not be the *first* element: the code has no
exact-equality bonus, so another entry can tie and, appearing earlier in
the catalog, be placed first by the stable sort. -/
theorem exact_displayName_attains_max_score (items : List Guide) (query : Str)
    (e : Guide) (he : e ∈ items)
    (hdn : asciiLower e.displayName = asciiLower query) :
    ∃ r ∈ FuzzySearch.search items query, r.item = e ∧
      ∀ r' ∈ FuzzySearch.search items query, r'.score ≤ r.score := by
  by_cases hq : query.length < 2
  · unfold FuzzySearch.search
    rw [if_pos hq]
    refine ⟨⟨e, 0, [], some (items.findIdx (fun x => x = e)), none, none, none⟩,
      List.mem_map.2 ⟨e, he, rfl⟩, rfl, ?_⟩
    intro r' hr'
    obtain ⟨a, _, rfl⟩ := List.mem_map.1 hr'
    exact le_refl 0
  · have hqlen : (asciiLower query).length = query.length := length_asciiLower query
    have hdnlen : e.displayName.length = query.length := by
      have := congrArg List.length hdn
      rwa [length_asciiLower, length_asciiLower] at this
    have hdnne : ¬ e.displayName = [] := by
      intro h0
      rw [h0] at hdnlen
      simp at hdnlen
      omega
    have hnorm : jsTrim (asciiLower (jsTrim (asciiLower query))) = jsTrim (asciiLower query) := by
      rw [asciiLower_jsTrim_asciiLower, jsTrim_idem]
    have hterm : jsTrim (asciiLower query)
        ∈ expandSearchQuery (jsTrim (asciiLower query)) := by
      have := expandSearchQuery_contains_normalized (jsTrim (asciiLower query))
      rwa [hnorm] at this
    have hks : calculateSearchScore e query (expandSearchQuery (jsTrim (asciiLower query))) = 2 :=
      calculateSearchScore_exact_displayName hdn hdnne hterm
    have hfm : (FuzzySearch.fuzzyMatch (jsTrim (asciiLower query))
        (asciiLower e.displayName)).score = 1 := by
      rw [hdn]
      apply fuzzyMatch_score_eq_one_of_includes
      · exact includes_jsTrim_of_includes (includes_refl _)
      · rw [length_asciiLower]
        calc (jsTrim (asciiLower query)).length
            ≤ (asciiLower query).length := length_jsTrim_le _
          _ = query.length := hqlen
    have hbf : (FuzzySearch.bestFuzzy (jsTrim (asciiLower query))
        (expandSearchQuery (jsTrim (asciiLower query))) e).best = 1 :=
      bestFuzzy_best_eq_one _ hdnne hfm
    have htot : FuzzySearch.totalScore query (jsTrim (asciiLower query))
        (expandSearchQuery (jsTrim (asciiLower query))) e = 3 := by
      unfold FuzzySearch.totalScore
      rw [hks, hbf]
      norm_num
    have hpass : fsThreshold ≤ FuzzySearch.totalScore query (jsTrim (asciiLower query))
        (expandSearchQuery (jsTrim (asciiLower query))) e := by
      rw [htot]
      unfold fsThreshold
      norm_num
    obtain ⟨j, hjmem⟩ := mem_searchGo items 0 he hpass
    unfold FuzzySearch.search
    rw [if_neg hq]
    refine ⟨FuzzySearch.mkResult query (jsTrim (asciiLower query))
      (expandSearchQuery (jsTrim (asciiLower query))) j e,
      (mem_sortByKeyDesc _ _ _).2 hjmem, rfl, ?_⟩
    intro r' hr'
    obtain ⟨it, _, hsc⟩ := searchGo_mem_inv items 0 r' ((mem_sortByKeyDesc _ _ _).1 hr')
    have hle := totalScore_le_three query (jsTrim (asciiLower query))
      (expandSearchQuery (jsTrim (asciiLower query))) it
    show r'.score ≤ FuzzySearch.totalScore query (jsTrim (asciiLower query))
      (expandSearchQuery (jsTrim (asciiLower query))) e
    rw [hsc, htot]
    exact hle

/-- C1 witness: a one-item catalog whose entry's displayName `"NGINX"`
lower-cases to the query `"nginx"`. -/
theorem exact_displayName_attains_max_score_witness :
    ∃ r ∈ FuzzySearch.search [⟨str "nginx", str "NGINX", [], [], [], [], 0, []⟩]
        (str "nginx"),
      r.item = ⟨str "nginx", str "NGINX", [], [], [], [], 0, []⟩ ∧
        ∀ r' ∈ FuzzySearch.search [⟨str "nginx", str "NGINX", [], [], [], [], 0, []⟩]
            (str "nginx"), r'.score ≤ r.score :=
  exact_displayName_attains_max_score _ (str "nginx") _ (by decide) (by decide)

/-- C1 counterexample: on the catalog `[{name "nginx", displayName "nginx
proxy"}, {name "aa", displayName "nginx"}]` with query `"nginx"`, the entry
whose displayName equals the query exactly is *not* the first element of
the result list: both entries reach the maximal score 3 (there is no
exact-equality bonus in the code), and the stable score-only sort keeps the
earlier catalog entry first. -/
theorem exact_displayName_not_first :
    asciiLower (⟨str "aa", str "nginx", [], [], [], [], 0, []⟩ : Guide).displayName
        = asciiLower (str "nginx") ∧
      (FuzzySearch.search
          [⟨str "nginx", str "nginx proxy", [], [], [], [], 0, []⟩,
            ⟨str "aa", str "nginx", [], [], [], [], 0, []⟩] (str "nginx")).head?.map
        (fun (r : SearchResult) => r.item)
        = some ⟨str "nginx", str "nginx proxy", [], [], [], [], 0, []⟩ ∧
      (⟨str "nginx", str "nginx proxy", [], [], [], [], 0, []⟩ : Guide)
        ≠ ⟨str "aa", str "nginx", [], [], [], [], 0, []⟩ := by
  refine ⟨by decide, by with_unfolding_all decide, by decide⟩
